import Mathlib

/-!
Verification of the wschat per-connection client (src/client.go): the
read pump's ingress normalization, the write pump's coalescing drain,
the liveness-probe timing constants, and the cleanup behaviour of both
pumps, modelled as a shallow embedding over byte lists and effect traces.
-/

namespace WsChat

/-- A message payload: a finite sequence of bytes, each byte a `Nat`. -/
abbrev Bytes := List Nat

/-- One second, in nanoseconds, mirroring Go `time.Second` (`time.Duration`
counts nanoseconds). -/
def second : Nat := 1000000000

/-- Time allowed to write a message to the peer (client.go line 18):
`writeWait = 10 * time.Second`. -/
def writeWait : Nat := 10 * second

/-- Time allowed to read the next pong from the peer (client.go line 21):
`pongWait = 60 * time.Second`. -/
def pongWait : Nat := 60 * second

/-- Period of the ping ticker (client.go line 24):
`pingPeriod = (pongWait * 9) / 10`. -/
def pingPeriod : Nat := (pongWait * 9) / 10

/-- Maximum message size allowed from a peer (client.go line 27):
`maxMessageSize = 512`. -/
def maxMessageSize : Nat := 512

/-- The `newline` byte slice (client.go line 31): `[]byte{'\n'}`. -/
def newline : Bytes := [10]

/-- The `space` byte slice (client.go line 32): `[]byte{' '}`. -/
def space : Bytes := [32]

/-- Capacity of a client's buffered `send` channel (client.go line 132):
`make(chan []byte, 256)`. -/
def sendCapacity : Nat := 256

/-- Fuel-indexed worker for `bytesReplace`; the fuel is always at least the
length of the remaining input, so the middle branch is never reached. -/
def replaceAux (old new : Bytes) : Nat → Bytes → Bytes
  | _, [] => []
  | 0, s => s
  | fuel + 1, b :: rest =>
    if old ≠ [] ∧ old.isPrefixOf (b :: rest) then
      new ++ replaceAux old new fuel (List.drop (old.length - 1) rest)
    else
      b :: replaceAux old new fuel rest

/-- Model of Go `bytes.Replace(s, old, new, -1)` for non-empty `old`:
replace every non-overlapping leftmost occurrence of `old` in `s` by `new`.
(The Go special case of an empty `old`, which is never exercised by
client.go, is modelled as the identity.) -/
def bytesReplace (old new s : Bytes) : Bytes :=
  replaceAux old new s.length s

/-- Model of the ASCII whitespace table `asciiSpace` used by Go
`bytes.TrimSpace` (tab, newline, vertical tab, form feed, carriage return,
space). -/
def asciiSpace (b : Nat) : Bool :=
  b = 9 || b = 10 || b = 11 || b = 12 || b = 13 || b = 32

/-- Model of Go `unicode.IsSpace` on rune values: the White_Space code
points — the Latin-1 cases (tab, newline, vertical tab, form feed, carriage
return, space, NEL U+0085, no-break space U+00A0) and the higher ranges
(U+1680, U+2000–U+200A, U+2028, U+2029, U+202F, U+205F, U+3000). -/
def unicodeIsSpace (r : Nat) : Bool :=
  r = 9 || r = 10 || r = 11 || r = 12 || r = 13 || r = 32 ||
  r = 133 || r = 160 || r = 5760 || (8192 ≤ r && r ≤ 8202) ||
  r = 8232 || r = 8233 || r = 8239 || r = 8287 || r = 12288

/-- Go `utf8.RuneError` (U+FFFD). -/
def runeError : Nat := 65533

/-- The leading-byte classification of Go `utf8.DecodeRune` (its `first`
and `acceptRanges` tables): for a valid leading byte, the sequence size and
the accepted range of the second byte; `none` for a continuation or invalid
leading byte. -/
def utf8AcceptRange (b0 : Nat) : Option (Nat × Nat × Nat) :=
  if 194 ≤ b0 && b0 ≤ 223 then some (2, 128, 191)
  else if b0 = 224 then some (3, 160, 191)
  else if 225 ≤ b0 && b0 ≤ 236 then some (3, 128, 191)
  else if b0 = 237 then some (3, 128, 159)
  else if 238 ≤ b0 && b0 ≤ 239 then some (3, 128, 191)
  else if b0 = 240 then some (4, 144, 191)
  else if 241 ≤ b0 && b0 ≤ 243 then some (4, 128, 191)
  else if b0 = 244 then some (4, 128, 143)
  else none

/-- Model of Go `utf8.DecodeRune(p)`: the first rune of `p` and its encoded
width; `(RuneError, 1)` for an invalid or truncated sequence and
`(RuneError, 0)` for empty input.  (Go checks `n < sz` before validating
the continuation bytes; the outcomes coincide, both `(RuneError, 1)`.) -/
def utf8DecodeRune : Bytes → Nat × Nat
  | [] => (runeError, 0)
  | b0 :: rest =>
    if b0 < 128 then (b0, 1)
    else
      match utf8AcceptRange b0 with
      | none => (runeError, 1)
      | some (sz, lo, hi) =>
        match rest with
        | [] => (runeError, 1)
        | b1 :: rest1 =>
          if b1 < lo || hi < b1 then (runeError, 1)
          else if sz = 2 then ((b0 % 32) * 64 + b1 % 64, 2)
          else
            match rest1 with
            | [] => (runeError, 1)
            | b2 :: rest2 =>
              if b2 < 128 || 191 < b2 then (runeError, 1)
              else if sz = 3 then
                ((b0 % 16) * 4096 + (b1 % 64) * 64 + b2 % 64, 3)
              else
                match rest2 with
                | [] => (runeError, 1)
                | b3 :: _ =>
                  if b3 < 128 || 191 < b3 then (runeError, 1)
                  else ((b0 % 8) * 262144 + (b1 % 64) * 4096
                    + (b2 % 64) * 64 + b3 % 64, 4)

/-- Go `utf8.RuneStart(b)`: a byte that is not a continuation byte. -/
def isRuneStart (b : Nat) : Bool := !(128 ≤ b && b ≤ 191)

/-- The backward scan of Go `utf8.DecodeLastRune`: the largest `j ≤ i` with
`lim ≤ j` whose byte starts a rune.  Fuelled; every use passes fuel at
least `i + 1`, so the fuel-exhausted branch is never reached. -/
def scanRuneStart (p : Bytes) (lim : Nat) : Nat → Nat → Option Nat
  | 0, _ => none
  | fuel + 1, i =>
    if i < lim then none
    else if isRuneStart (p.getD i 0) then some i
    else
      match i with
      | 0 => none
      | j + 1 => scanRuneStart p lim fuel j

/-- The decode start position chosen by Go `utf8.DecodeLastRune`: scan at
most `UTFMax = 4` bytes back from the end for a rune-start byte; when none
is found the scan over-runs by one position (Go leaves `start` at `lim-1`,
clamped to 0). -/
def utf8LastStart (p : Bytes) : Nat :=
  match scanRuneStart p (p.length - 4) p.length (p.length - 2) with
  | some j => j
  | none => if p.length - 4 = 0 then 0 else p.length - 4 - 1

/-- The final decode-and-check of Go `utf8.DecodeLastRune`: decode forward
from `start`; if the decoded width does not exactly reach the end of `p`,
the trailing bytes are not a valid rune suffix and the result is
`(RuneError, 1)`. -/
def decodeLastFrom (p : Bytes) (start : Nat) : Nat × Nat :=
  if start + (utf8DecodeRune (p.drop start)).2 = p.length
  then utf8DecodeRune (p.drop start)
  else (runeError, 1)

/-- Model of Go `utf8.DecodeLastRune(p)`: the last rune of `p` and its
encoded width. -/
def utf8DecodeLastRune (p : Bytes) : Nat × Nat :=
  if p.length = 0 then (runeError, 0)
  else if p.getD (p.length - 1) 0 < 128 then (p.getD (p.length - 1) 0, 1)
  else decodeLastFrom p (utf8LastStart p)

/-- Model of Go `bytes.TrimLeftFunc(s, f)` (via `indexFunc`): drop leading
runes satisfying `f`; the result is the suffix starting at the first rune
not satisfying `f`, or empty when every rune satisfies it.  Fuelled; each
step drops at least one byte, so fuel `s.length` always suffices. -/
def trimLeftFunc (f : Nat → Bool) : Nat → Bytes → Bytes
  | 0, s => s
  | _ + 1, [] => []
  | fuel + 1, b :: rest =>
    if f (utf8DecodeRune (b :: rest)).1 then
      trimLeftFunc f fuel ((b :: rest).drop (utf8DecodeRune (b :: rest)).2)
    else b :: rest

/-- The rune examined at end position `i` by Go `lastIndexFunc`: the single
byte when it is ASCII, otherwise `DecodeLastRune` of the prefix of length
`i`. -/
def lastByteRune (s : Bytes) (i : Nat) : Nat × Nat :=
  if s.getD (i - 1) 0 < 128 then (s.getD (i - 1) 0, 1)
  else utf8DecodeLastRune (s.take i)

/-- Model of Go `lastIndexFunc(s, f, false)`: scanning runes from the end,
the start index of the last rune not satisfying `f`, or `none` when every
rune satisfies `f`.  Fuelled; every iteration moves the end position down
by at least one byte, so fuel `s.length` always suffices. -/
def lastIndexFuncAux (f : Nat → Bool) (s : Bytes) : Nat → Nat → Option Nat
  | 0, _ => none
  | fuel + 1, i =>
    if i = 0 then none
    else if f (lastByteRune s i).1 = false then
      some (i - (lastByteRune s i).2)
    else lastIndexFuncAux f s fuel (i - (lastByteRune s i).2)

/-- Model of Go `bytes.TrimRightFunc(s, f)`: everything up to and including
the last rune not satisfying `f` (re-measuring that rune forward, as Go
does), or empty when every rune satisfies `f`. -/
def trimRightFunc (f : Nat → Bool) (s : Bytes) : Bytes :=
  match lastIndexFuncAux f s s.length s.length with
  | none => []
  | some i =>
    if 128 ≤ s.getD i 0 then s.take (i + (utf8DecodeRune (s.drop i)).2)
    else s.take (i + 1)

/-- Model of Go `bytes.TrimFunc(s, f)`:
`TrimRightFunc(TrimLeftFunc(s, f), f)`. -/
def trimFunc (f : Nat → Bool) (s : Bytes) : Bytes :=
  trimRightFunc f (trimLeftFunc f s.length s)

/-- The backward ASCII scan of Go `bytes.TrimSpace` over `t.take stop`,
entered after leading ASCII whitespace has been removed: a non-ASCII byte
falls back to the Unicode-aware `TrimFunc`, an ASCII space shrinks `stop`,
any other byte ends the scan; `stop = 0` means everything was whitespace
(Go returns nil). -/
def trimSpaceEndAux (t : Bytes) : Nat → Bytes
  | 0 => []
  | stop + 1 =>
    if 128 ≤ t.getD stop 0 then trimFunc unicodeIsSpace (t.take (stop + 1))
    else if asciiSpace (t.getD stop 0) then trimSpaceEndAux t stop
    else t.take (stop + 1)

/-- Model of Go `bytes.TrimSpace(s)`: the ASCII fast path trims ASCII
whitespace from both ends, falling back to `TrimFunc` with
`unicode.IsSpace` as soon as a non-ASCII byte is met at either end. -/
def trimSpace : Bytes → Bytes
  | [] => []
  | b :: rest =>
    if 128 ≤ b then trimFunc unicodeIsSpace (b :: rest)
    else if asciiSpace b then trimSpace rest
    else trimSpaceEndAux (b :: rest) (rest.length + 1)

/-- The ingress normalization applied by the read pump (client.go line 74):
`bytes.TrimSpace(bytes.Replace(message, newline, space, -1))`. -/
def normalizeMessage (m : Bytes) : Bytes :=
  trimSpace (bytesReplace newline space m)

/-- The raw bytes of the spec scenario input `"  hello\nworld  \n"`. -/
def scenarioInput : Bytes :=
  [32, 32, 104, 101, 108, 108, 111, 10, 119, 111, 114, 108, 100, 32, 32, 10]

/-- The bytes of the normalized message `"hello world"`. -/
def scenarioOutput : Bytes :=
  [104, 101, 108, 108, 111, 32, 119, 111, 114, 108, 100]

/-- With enough fuel, replacing the single byte 10 by 32 is exactly a
pointwise map over the input. -/
theorem replaceAux_newline (fuel : Nat) (s : Bytes) (h : s.length ≤ fuel) :
    replaceAux newline space fuel s
      = s.map (fun b => if b = 10 then 32 else b) := by
  induction fuel generalizing s with
  | zero =>
    cases s with
    | nil => rfl
    | cons b rest => simp at h
  | succ fuel ih =>
    cases s with
    | nil => rfl
    | cons b rest =>
      simp only [List.length_cons, Nat.succ_le_succ_iff] at h
      by_cases hb : b = 10
      · subst hb
        have hpos : (newline ≠ [] ∧ newline.isPrefixOf (10 :: rest)) := by
          refine ⟨by simp [newline], ?_⟩
          simp [newline, List.isPrefixOf]
        have hdrop : List.drop (newline.length - 1) rest = rest := by
          simp [newline]
        simp only [replaceAux, if_pos hpos, hdrop, ih rest h]
        simp [space]
      · have hneg : ¬(newline ≠ [] ∧ newline.isPrefixOf (b :: rest)) := by
          simp only [newline, List.isPrefixOf, ne_eq, not_and, Bool.and_eq_true,
            beq_iff_eq]
          intro _ hcontra
          exact absurd hcontra.symm hb
        simp only [replaceAux, if_neg hneg, ih rest h, List.map_cons]
        have hif : (if b = 10 then 32 else b) = b := if_neg hb
        rw [hif]

/-- `bytesReplace newline space` is a pointwise map over the input. -/
theorem bytesReplace_newline (s : Bytes) :
    bytesReplace newline space s
      = s.map (fun b => if b = 10 then 32 else b) :=
  replaceAux_newline s.length s (Nat.le_refl _)

/-- No byte of `bytesReplace newline space s` is a newline. -/
theorem bytesReplace_newline_free (s : Bytes) :
    ∀ b ∈ bytesReplace newline space s, b ≠ 10 := by
  intro b hb
  rw [bytesReplace_newline] at hb
  rcases List.mem_map.mp hb with ⟨a, _, ha⟩
  by_cases h10 : a = 10 <;> simp [h10] at ha <;> omega

/-- `trimLeftFunc` only removes elements from the front. -/
theorem trimLeftFunc_sublist (f : Nat → Bool) :
    ∀ fuel s, (trimLeftFunc f fuel s).Sublist s := by
  intro fuel
  induction fuel with
  | zero => intro s; exact List.Sublist.refl s
  | succ fuel ih =>
    intro s
    cases s with
    | nil => exact List.Sublist.refl []
    | cons b rest =>
      rw [trimLeftFunc]
      by_cases hf : f (utf8DecodeRune (b :: rest)).1 = true
      · rw [if_pos hf]
        exact (ih _).trans (List.drop_sublist _ _)
      · rw [if_neg hf]

/-- Unfolding `trimRightFunc` when the scan finds a rune start. -/
theorem trimRightFunc_eq_some (f : Nat → Bool) (s : Bytes) (i : Nat)
    (h : lastIndexFuncAux f s s.length s.length = some i) :
    trimRightFunc f s
      = if 128 ≤ s.getD i 0 then s.take (i + (utf8DecodeRune (s.drop i)).2)
        else s.take (i + 1) := by
  rw [trimRightFunc, h]

/-- Unfolding `trimRightFunc` when every rune satisfies the predicate. -/
theorem trimRightFunc_eq_nil (f : Nat → Bool) (s : Bytes)
    (h : lastIndexFuncAux f s s.length s.length = none) :
    trimRightFunc f s = [] := by
  rw [trimRightFunc, h]

/-- `trimRightFunc` returns a prefix of its input. -/
theorem trimRightFunc_sublist (f : Nat → Bool) (s : Bytes) :
    (trimRightFunc f s).Sublist s := by
  cases h : lastIndexFuncAux f s s.length s.length with
  | none =>
    rw [trimRightFunc_eq_nil f s h]
    exact List.nil_sublist s
  | some i =>
    rw [trimRightFunc_eq_some f s i h]
    by_cases hb : 128 ≤ s.getD i 0
    · rw [if_pos hb]
      exact List.take_sublist _ _
    · rw [if_neg hb]
      exact List.take_sublist _ _

/-- `trimFunc` only removes elements. -/
theorem trimFunc_sublist (f : Nat → Bool) (s : Bytes) :
    (trimFunc f s).Sublist s :=
  (trimRightFunc_sublist f _).trans (trimLeftFunc_sublist f s.length s)

/-- The backward ASCII scan only removes elements. -/
theorem trimSpaceEndAux_sublist (t : Bytes) :
    ∀ stop, (trimSpaceEndAux t stop).Sublist t := by
  intro stop
  induction stop with
  | zero => exact List.nil_sublist t
  | succ stop ih =>
    rw [trimSpaceEndAux]
    by_cases h1 : 128 ≤ t.getD stop 0
    · rw [if_pos h1]
      exact (trimFunc_sublist _ _).trans (List.take_sublist _ _)
    · rw [if_neg h1]
      by_cases h2 : asciiSpace (t.getD stop 0) = true
      · rw [if_pos h2]
        exact ih
      · rw [if_neg h2]
        exact List.take_sublist _ _

/-- `trimSpace` only removes elements: its result is a sublist. -/
theorem trimSpace_sublist (s : Bytes) : (trimSpace s).Sublist s := by
  induction s with
  | nil => exact List.Sublist.refl []
  | cons b rest ih =>
    rw [trimSpace]
    by_cases h1 : 128 ≤ b
    · rw [if_pos h1]
      exact trimFunc_sublist _ _
    · rw [if_neg h1]
      by_cases h2 : asciiSpace b = true
      · rw [if_pos h2]
        exact ih.trans (List.sublist_cons_self b rest)
      · rw [if_neg h2]
        exact trimSpaceEndAux_sublist _ _

/-- Claim C1: the read pump's ingress normalization replaces every interior
line-break byte with a space and trims surrounding whitespace: no newline
byte survives normalization, and the scenario input `"  hello\nworld  \n"`
normalizes to exactly `"hello world"`. -/
theorem readPump_normalization_C1 :
    (∀ m : Bytes, ∀ b ∈ normalizeMessage m, b ≠ 10) ∧
    normalizeMessage scenarioInput = scenarioOutput := by
  constructor
  · intro m b hb
    exact bytesReplace_newline_free m b
      ((trimSpace_sublist (bytesReplace newline space m)).mem hb)
  · decide

/-- Claim C8: the liveness-probe period equals 9/10 of the 60-second idle
timeout, i.e. exactly 54 seconds, and is strictly less than the idle
timeout. -/
theorem pingPeriod_C8 :
    pingPeriod = 54 * second ∧ pingPeriod < pongWait ∧
    10 * pingPeriod = 9 * pongWait := by
  refine ⟨?_, ?_, ?_⟩ <;> norm_num [pingPeriod, pongWait, second]

/-- ASCII whitespace bytes are Unicode whitespace runes. -/
theorem unicodeIsSpace_of_ascii (b : Nat) (h : asciiSpace b = true) :
    unicodeIsSpace b = true := by
  have hb : b = 9 ∨ b = 10 ∨ b = 11 ∨ b = 12 ∨ b = 13 ∨ b = 32 := by
    simp only [asciiSpace, Bool.or_eq_true, decide_eq_true_eq] at h
    tauto
  rcases hb with h1 | h1 | h1 | h1 | h1 | h1 <;> subst h1 <;> decide

/-- Decoding at an ASCII byte yields that byte with width one. -/
theorem decodeRune_ascii (b : Nat) (rest : Bytes) (hb : b < 128) :
    utf8DecodeRune (b :: rest) = (b, 1) := by
  rw [utf8DecodeRune, if_pos hb]

/-- Decoding a single non-ASCII byte always has width one. -/
theorem decodeRune_singleton_width (b : Nat) (hb : 128 ≤ b) :
    (utf8DecodeRune [b]).2 = 1 := by
  rw [utf8DecodeRune, if_neg (by omega : ¬ b < 128)]
  cases h : utf8AcceptRange b with
  | none => rfl
  | some v =>
    obtain ⟨sz, lo, hi⟩ := v
    rfl

/-- `DecodeLastRune` of a sequence whose final byte is ASCII is that byte
with width one. -/
theorem decodeLastRune_ascii (p : Bytes) (hp : p ≠ [])
    (hb : p.getD (p.length - 1) 0 < 128) :
    utf8DecodeLastRune p = (p.getD (p.length - 1) 0, 1) := by
  have h0 : ¬ p.length = 0 := by
    have := List.length_pos.mpr hp
    omega
  rw [utf8DecodeLastRune, if_neg h0, if_pos hb]

/-- The backward rune-start scan never overshoots its start position. -/
theorem scanRuneStart_le (p : Bytes) (lim : Nat) :
    ∀ fuel i j, scanRuneStart p lim fuel i = some j → j ≤ i := by
  intro fuel
  induction fuel with
  | zero =>
    intro i j h
    cases h
  | succ fuel ih =>
    intro i j h
    simp only [scanRuneStart] at h
    by_cases h1 : i < lim
    · rw [if_pos h1] at h
      cases h
    · rw [if_neg h1] at h
      by_cases h2 : isRuneStart (p.getD i 0) = true
      · rw [if_pos h2] at h
        cases h
        exact Nat.le_refl _
      · rw [if_neg h2] at h
        cases i with
        | zero => cases h
        | succ i2 => exact (ih i2 j h).trans (Nat.le_succ i2)

/-- The decode start position of `DecodeLastRune` lies inside the input. -/
theorem utf8LastStart_lt (p : Bytes) (hp : p ≠ []) :
    utf8LastStart p < p.length := by
  have hlen : 0 < p.length := List.length_pos.mpr hp
  rw [utf8LastStart]
  cases h : scanRuneStart p (p.length - 4) p.length (p.length - 2) with
  | none =>
    dsimp only
    by_cases h4 : p.length - 4 = 0
    · rw [if_pos h4]
      omega
    · rw [if_neg h4]
      omega
  | some j =>
    dsimp only
    have := scanRuneStart_le p (p.length - 4) p.length (p.length - 2) j h
    omega

/-- At the full length, `lastIndexFunc`'s examined rune is exactly
`DecodeLastRune` of the whole sequence. -/
theorem lastByteRune_length (s : Bytes) (hs : s ≠ []) :
    lastByteRune s s.length = utf8DecodeLastRune s := by
  rw [lastByteRune, List.take_length]
  by_cases hb : s.getD (s.length - 1) 0 < 128
  · rw [if_pos hb, decodeLastRune_ascii s hs hb]
  · rw [if_neg hb]

/-- `TrimLeftFunc` is the identity when the first rune does not satisfy the
predicate. -/
theorem trimLeftFunc_eq_self (fuel : Nat) (m : Bytes)
    (hhead : unicodeIsSpace (utf8DecodeRune m).1 = false) :
    trimLeftFunc unicodeIsSpace fuel m = m := by
  cases fuel with
  | zero => rfl
  | succ fuel =>
    cases m with
    | nil => rfl
    | cons b rest =>
      rw [trimLeftFunc, if_neg (by simp [hhead])]

/-- `TrimRightFunc` is the identity when the last rune does not satisfy the
predicate. -/
theorem trimRightFunc_eq_self (m : Bytes) (hm : m ≠ [])
    (hlast : unicodeIsSpace (utf8DecodeLastRune m).1 = false) :
    trimRightFunc unicodeIsSpace m = m := by
  have hlen : 0 < m.length := List.length_pos.mpr hm
  have hidx : lastIndexFuncAux unicodeIsSpace m m.length m.length
      = some (m.length - (utf8DecodeLastRune m).2) := by
    obtain ⟨k, hk⟩ : ∃ k, m.length = k + 1 := ⟨m.length - 1, by omega⟩
    rw [hk, lastIndexFuncAux, if_neg (Nat.succ_ne_zero k)]
    have hlb : lastByteRune m (k + 1) = utf8DecodeLastRune m := by
      rw [← hk]
      exact lastByteRune_length m hm
    rw [hlb, if_pos hlast]
  rw [trimRightFunc_eq_some unicodeIsSpace m
    (m.length - (utf8DecodeLastRune m).2) hidx]
  by_cases hb : m.getD (m.length - 1) 0 < 128
  · rw [decodeLastRune_ascii m hm hb]
    dsimp only
    rw [if_neg (by omega : ¬ 128 ≤ m.getD (m.length - 1) 0)]
    have h1 : m.length - 1 + 1 = m.length := by omega
    rw [h1, List.take_length]
  · have hb9 : 128 ≤ m.getD (m.length - 1) 0 := by omega
    have hdef : utf8DecodeLastRune m = decodeLastFrom m (utf8LastStart m) := by
      rw [utf8DecodeLastRune, if_neg (by omega : ¬ m.length = 0), if_neg hb]
    have hstlt : utf8LastStart m < m.length := utf8LastStart_lt m hm
    rw [hdef, decodeLastFrom]
    by_cases hg : utf8LastStart m
        + (utf8DecodeRune (m.drop (utf8LastStart m))).2 = m.length
    · rw [if_pos hg]
      have hi2 : m.length - (utf8DecodeRune (m.drop (utf8LastStart m))).2
          = utf8LastStart m := by omega
      rw [hi2]
      by_cases hsb : 128 ≤ m.getD (utf8LastStart m) 0
      · rw [if_pos hsb, hg, List.take_length]
      · exfalso
        have hdropeq : m.drop (utf8LastStart m)
            = m.getD (utf8LastStart m) 0 :: m.drop (utf8LastStart m + 1) := by
          rw [List.drop_eq_getElem_cons hstlt,
            List.getD_eq_getElem m 0 hstlt]
        have hdec : utf8DecodeRune (m.drop (utf8LastStart m))
            = (m.getD (utf8LastStart m) 0, 1) := by
          rw [hdropeq]
          exact decodeRune_ascii _ _ (by omega)
        rw [hdec] at hg
        have heq : utf8LastStart m = m.length - 1 := by omega
        rw [heq] at hsb
        omega
    · rw [if_neg hg]
      have hsnd : ((runeError, 1) : Nat × Nat).2 = 1 := rfl
      rw [hsnd, if_pos hb9]
      have h1 : m.length - 1 < m.length := by omega
      have hdropk : m.drop (m.length - 1) = [m.getD (m.length - 1) 0] := by
        rw [List.drop_eq_getElem_cons h1, List.getD_eq_getElem m 0 h1]
        have h2 : m.length - 1 + 1 = m.length := by omega
        rw [h2, List.drop_length]
      rw [hdropk, decodeRune_singleton_width _ hb9]
      have h2 : m.length - 1 + 1 = m.length := by omega
      rw [h2, List.take_length]

/-- `TrimFunc` is the identity when neither boundary rune satisfies the
predicate. -/
theorem trimFunc_eq_self (m : Bytes)
    (hhead : unicodeIsSpace (utf8DecodeRune m).1 = false)
    (hlast : unicodeIsSpace (utf8DecodeLastRune m).1 = false) :
    trimFunc unicodeIsSpace m = m := by
  rw [trimFunc, trimLeftFunc_eq_self m.length m hhead]
  cases m with
  | nil => rfl
  | cons b rest => exact trimRightFunc_eq_self (b :: rest) (by simp) hlast

/-- `TrimSpace` is the identity when neither boundary rune is whitespace. -/
theorem trimSpace_eq_self (m : Bytes)
    (hhead : unicodeIsSpace (utf8DecodeRune m).1 = false)
    (hlast : unicodeIsSpace (utf8DecodeLastRune m).1 = false) :
    trimSpace m = m := by
  cases m with
  | nil => rfl
  | cons b rest =>
    rw [trimSpace]
    by_cases hb : 128 ≤ b
    · rw [if_pos hb]
      exact trimFunc_eq_self _ hhead hlast
    · rw [if_neg hb]
      have hbu : unicodeIsSpace b = false := by
        have h0 := hhead
        rw [decodeRune_ascii b rest (by omega)] at h0
        exact h0
      have hba : ¬ asciiSpace b = true := by
        intro h
        rw [unicodeIsSpace_of_ascii b h] at hbu
        cases hbu
      rw [if_neg hba, trimSpaceEndAux]
      have hlen1 : rest.length < (b :: rest).length := by simp
      have hgd : (b :: rest).getD rest.length 0 = (b :: rest).getD
          ((b :: rest).length - 1) 0 := by
        simp
      by_cases hc : 128 ≤ (b :: rest).getD rest.length 0
      · rw [if_pos hc]
        have ht : (b :: rest).take (rest.length + 1) = b :: rest := by
          have h2 : rest.length + 1 = (b :: rest).length := by simp
          rw [h2, List.take_length]
        rw [ht]
        exact trimFunc_eq_self _ hhead hlast
      · rw [if_neg hc]
        have hlast2 : utf8DecodeLastRune (b :: rest)
            = ((b :: rest).getD rest.length 0, 1) := by
          rw [decodeLastRune_ascii (b :: rest) (by simp)
            (by rw [← hgd]; omega)]
          rw [← hgd]
        have hcu : unicodeIsSpace ((b :: rest).getD rest.length 0) = false := by
          rw [hlast2] at hlast
          exact hlast
        have hca : ¬ asciiSpace ((b :: rest).getD rest.length 0) = true := by
          intro h
          rw [unicodeIsSpace_of_ascii _ h] at hcu
          cases hcu
        rw [if_neg hca]
        have h2 : rest.length + 1 = (b :: rest).length := by simp
        rw [h2, List.take_length]

/-- A byte list whose boundary runes are not whitespace and whose interior
bytes are not newlines contains no newline byte at all (a boundary newline
byte would itself be a whitespace rune). -/
theorem no_newline_of_normalized (m : Bytes)
    (hhead : unicodeIsSpace (utf8DecodeRune m).1 = false)
    (hlast : unicodeIsSpace (utf8DecodeLastRune m).1 = false)
    (hint : ∀ i (h : i < m.length), 0 < i → i + 1 < m.length →
      m.get ⟨i, h⟩ ≠ 10) :
    ∀ b ∈ m, b ≠ 10 := by
  intro b hb
  rcases List.mem_iff_get.mp hb with ⟨⟨i, h⟩, rfl⟩
  rcases Nat.eq_zero_or_pos i with hi0 | hipos
  · subst hi0
    intro hcontra
    cases m with
    | nil => simp at h
    | cons b0 rest =>
      have hb0 : b0 = 10 := by simpa using hcontra
      subst hb0
      rw [decodeRune_ascii 10 rest (by omega)] at hhead
      exact absurd hhead (by decide)
  · rcases Nat.lt_or_ge (i + 1) m.length with hilt | hige
    · exact hint i h hipos hilt
    · intro hcontra
      have hne : m ≠ [] := by
        intro hnil
        rw [hnil] at h
        simp at h
      have hgd : m.getD (m.length - 1) 0 = 10 := by
        have h1 : m.length - 1 < m.length := by omega
        rw [List.getD_eq_getElem m 0 h1]
        have h2 : m.length - 1 = i := by omega
        rw [List.get_eq_getElem] at hcontra
        subst h2
        exact hcontra
      rw [decodeLastRune_ascii m hne (by rw [hgd]; omega), hgd] at hlast
      exact absurd hlast (by decide)

/-- Sanity check of the Unicode fallback: a leading UTF-8 no-break space
(U+00A0, bytes 0xC2 0xA0) is trimmed, matching `bytes.TrimSpace`. -/
theorem trimSpace_trims_nbsp : trimSpace [194, 160, 104] = [104] := by decide

/-- Claim C2: normalization is idempotent on already-normalized inputs: a
message with no interior line-break byte whose leading and trailing runes
are not whitespace is returned unchanged by the read pump's
normalization. -/
theorem normalize_idempotent_C2 (m : Bytes)
    (hhead : unicodeIsSpace (utf8DecodeRune m).1 = false)
    (hlast : unicodeIsSpace (utf8DecodeLastRune m).1 = false)
    (hint : ∀ i (h : i < m.length), 0 < i → i + 1 < m.length →
      m.get ⟨i, h⟩ ≠ 10) :
    normalizeMessage m = m := by
  have hnonl : ∀ b ∈ m, b ≠ 10 := no_newline_of_normalized m hhead hlast hint
  have hrep : bytesReplace newline space m = m := by
    rw [bytesReplace_newline]
    have hcong : ∀ b ∈ m, (if b = 10 then 32 else b) = id b := by
      intro b hb
      simp [hnonl b hb]
    rw [List.map_congr_left hcong, List.map_id]
  rw [normalizeMessage, hrep]
  exact trimSpace_eq_self m hhead hlast

/-- Witness for claim C2: the hypotheses hold at the already-normalized
input `"hello world"` and normalization leaves it unchanged. -/
theorem normalize_idempotent_C2_witness :
    unicodeIsSpace (utf8DecodeRune scenarioOutput).1 = false ∧
    unicodeIsSpace (utf8DecodeLastRune scenarioOutput).1 = false ∧
    (∀ i (h : i < scenarioOutput.length), 0 < i →
      i + 1 < scenarioOutput.length → scenarioOutput.get ⟨i, h⟩ ≠ 10) ∧
    normalizeMessage scenarioOutput = scenarioOutput :=
  ⟨by decide, by decide, by decide,
    normalize_idempotent_C2 scenarioOutput (by decide) (by decide) (by decide)⟩

/-- Bytes written through one websocket writer during the message branch of
`writePump` (client.go lines 100–111): first the received message, then for
each drained queue message a newline followed by that message, mirroring the
loop `w.Write(newline); w.Write(<-c.send)`. -/
def burstBytes (message : Bytes) (drained : List Bytes) : Bytes :=
  drained.foldl (fun acc m => acc ++ newline ++ m) message

/-- One coalescing write transaction of the write pump's message branch
(client.go lines 100–115).  The drain count `n := len(c.send)` is taken at
the instant the drain loop starts, when the channel holds exactly
`snapshot`; messages of `later` are enqueued after that instant, so the
channel consumed by the `n` receives is `snapshot ++ later` (the channel is
FIFO).  Returns the bytes written in the transaction and the channel
contents left for subsequent iterations. -/
def coalesceTransaction (message : Bytes) (snapshot later : List Bytes) :
    Bytes × List Bytes :=
  let chan := snapshot ++ later
  let n := snapshot.length
  (burstBytes message (chan.take n), chan.drop n)

/-- Unfolding `burstBytes` into an append of newline-prefixed messages. -/
theorem burstBytes_eq_join (l : List Bytes) :
    ∀ message, burstBytes message l
      = message ++ (l.map (fun m => newline ++ m)).flatten := by
  induction l with
  | nil =>
    intro message
    simp [burstBytes]
  | cons m rest ih =>
    intro message
    show burstBytes (message ++ newline ++ m) rest = _
    rw [ih]
    simp [List.append_assoc]

/-- Claim C3: the message branch drains exactly the messages queued at the
instant the drain count was taken — in FIFO order, appended after the first
message — and leaves every later-enqueued message in the queue. -/
theorem writePump_coalesce_C3 (message : Bytes) (snapshot later : List Bytes) :
    coalesceTransaction message snapshot later
      = (message ++ (snapshot.map (fun m => newline ++ m)).flatten, later) := by
  show (burstBytes message ((snapshot ++ later).take snapshot.length),
      (snapshot ++ later).drop snapshot.length) = _
  rw [List.take_left, List.drop_left, burstBytes_eq_join]

/-- Helper: `List.intercalate` of a nonempty list of byte lists is the head
followed by each remaining element prefixed with the separator. -/
theorem intercalate_eq_head_join (sep : Bytes) (l : List Bytes) :
    ∀ a, List.intercalate sep (a :: l)
      = a ++ (l.map (fun m => sep ++ m)).flatten := by
  induction l with
  | nil =>
    intro a
    simp [List.intercalate]
  | cons b rest ih =>
    intro a
    have hr := ih b
    simp only [List.intercalate] at hr ⊢
    rw [List.intersperse_cons_cons]
    simp only [List.flatten_cons, List.map_cons]
    rw [hr]
    simp [List.append_assoc]

/-- Claim C10: within one coalesced write transaction the messages are
separated by exactly one newline byte between each consecutive pair. -/
theorem writePump_newline_separator_C10
    (message : Bytes) (snapshot later : List Bytes) :
    (coalesceTransaction message snapshot later).1
      = List.intercalate newline (message :: snapshot) := by
  show burstBytes message ((snapshot ++ later).take snapshot.length)
      = List.intercalate newline (message :: snapshot)
  rw [List.take_left, burstBytes_eq_join, intercalate_eq_head_join]

/-- Terminal outcomes of `conn.ReadMessage()`: a websocket close error with
its close code (clean or abnormal close), the error produced when a payload
exceeds the configured read limit, or any other transport read error. -/
inductive ReadErr where
  | closeErr (code : Nat)
  | readLimitExceeded
  | otherErr
deriving DecidableEq

/-- Websocket close code `websocket.CloseGoingAway`. -/
def closeGoingAway : Nat := 1001

/-- Websocket close code `websocket.CloseAbnormalClosure`. -/
def closeAbnormalClosure : Nat := 1006

/-- Model of `websocket.IsUnexpectedCloseError(err, codes...)`: true exactly
when the error is a close error whose code is not among the expected codes
(a non-close error, such as a read-limit violation, is never an unexpected
close error). -/
def isUnexpectedCloseError (e : ReadErr) (expected : List Nat) : Bool :=
  match e with
  | .closeErr code => !(expected.contains code)
  | .readLimitExceeded => false
  | .otherErr => false

/-- Observable actions of the read pump, in program order. -/
inductive Effect where
  | setReadLimit (n : Nat)
  | setReadDeadline (t : Nat)
  | setPongHandler
  | broadcast (m : Bytes)
  | logError
  | unregister
  | closeConn
deriving DecidableEq

/-- Effects of the read loop body (client.go lines 66–76): each successful
read is normalized and submitted to `c.hub.broadcast`; the terminal error is
logged only when it is an unexpected close error; then the loop breaks. -/
def readPumpLoop (reads : List Bytes) (terminal : ReadErr) : List Effect :=
  reads.map (fun m => .broadcast (normalizeMessage m))
    ++ (if isUnexpectedCloseError terminal [closeGoingAway, closeAbnormalClosure]
        then [.logError] else [])

/-- The deferred cleanup of the read pump (client.go lines 55–58): submit the
client to `c.hub.unregister`, then close the connection. -/
def readPumpDefer : List Effect := [.unregister, .closeConn]

/-- Full effect trace of `readPump` (client.go lines 54–77) on a connection
that yields the payloads `reads` and then the terminal error `terminal`:
setup (read limit, initial read deadline, pong handler), the read loop, and
the deferred cleanup, which runs on every exit path. -/
def readPump (now : Nat) (reads : List Bytes) (terminal : ReadErr) :
    List Effect :=
  [.setReadLimit maxMessageSize, .setReadDeadline (now + pongWait),
    .setPongHandler]
    ++ readPumpLoop reads terminal ++ readPumpDefer

/-- The read loop body never emits an unregister or a connection close. -/
theorem readPumpLoop_no_cleanup (reads : List Bytes) (terminal : ReadErr) :
    Effect.unregister ∉ readPumpLoop reads terminal ∧
    Effect.closeConn ∉ readPumpLoop reads terminal := by
  have hshape : ∀ e ∈ readPumpLoop reads terminal,
      (∃ m, e = Effect.broadcast m) ∨ e = Effect.logError := by
    intro e he
    rw [readPumpLoop, List.mem_append] at he
    rcases he with he | he
    · rcases List.mem_map.mp he with ⟨a, _, rfl⟩
      exact Or.inl ⟨normalizeMessage a, rfl⟩
    · by_cases hc : isUnexpectedCloseError terminal
          [closeGoingAway, closeAbnormalClosure] = true
      · rw [if_pos hc] at he
        exact Or.inr (List.mem_singleton.mp he)
      · rw [if_neg hc] at he
        cases he
  constructor <;>
  · intro hmem
    rcases hshape _ hmem with ⟨m, hm⟩ | hm <;> cases hm

/-- Claim C4: on every exit path of the read pump — any list of successful
reads followed by any terminal error — the trace contains exactly one
unregister submission and exactly one connection close, and they are its
final two effects, in that order (the deferred cleanup). -/
theorem readPump_cleanup_C4 (now : Nat) (reads : List Bytes)
    (terminal : ReadErr) :
    (readPump now reads terminal).count Effect.unregister = 1 ∧
    (readPump now reads terminal).count Effect.closeConn = 1 ∧
    ∃ pre, readPump now reads terminal
      = pre ++ [Effect.unregister, Effect.closeConn] := by
  have hloop := readPumpLoop_no_cleanup reads terminal
  refine ⟨?_, ?_, ?_⟩
  · simp [readPump, readPumpDefer, List.count_append, List.count_cons,
      List.count_eq_zero.mpr hloop.1]
  · simp [readPump, readPumpDefer, List.count_append, List.count_cons,
      List.count_eq_zero.mpr hloop.2]
  · exact ⟨[Effect.setReadLimit maxMessageSize,
      Effect.setReadDeadline (now + pongWait), Effect.setPongHandler]
        ++ readPumpLoop reads terminal, by
      rw [readPump, List.append_assoc]
      rfl⟩

/-- Modelled transport read stream under `SetReadLimit` (the websocket
library makes `ReadMessage` return an error as soon as a payload exceeds the
configured limit): the successful reads are the incoming payloads up to but
not including the first oversized one; the terminal error is the read-limit
error if an oversized payload occurs, and otherwise the stream's own
terminal error `fallback`. -/
def connRead (limit : Nat) (incoming : List Bytes) (fallback : ReadErr) :
    List Bytes × ReadErr :=
  match incoming with
  | [] => ([], fallback)
  | m :: rest =>
    if limit < m.length then ([], .readLimitExceeded)
    else
      let r := connRead limit rest fallback
      (m :: r.1, r.2)

/-- The read pump run against a connection delivering `incoming`, with the
read limit `maxMessageSize` it configures (client.go line 59). -/
def readPumpOnConn (now : Nat) (incoming : List Bytes) (fallback : ReadErr) :
    List Effect :=
  let r := connRead maxMessageSize incoming fallback
  readPump now r.1 r.2

/-- Splitting `connRead` at the first oversized payload. -/
theorem connRead_oversize (limit : Nat) (fallback : ReadErr) (big : Bytes)
    (hbig : limit < big.length) :
    ∀ (good rest : List Bytes), (∀ m ∈ good, m.length ≤ limit) →
      connRead limit (good ++ big :: rest) fallback
        = (good, .readLimitExceeded) := by
  intro good
  induction good with
  | nil =>
    intro rest _
    simp [connRead, hbig]
  | cons g gs ih =>
    intro rest hgood
    have hg : ¬limit < g.length := by
      have := hgood g (List.mem_cons_self g gs)
      omega
    have hgs : ∀ m ∈ gs, m.length ≤ limit := by
      intro m hm
      exact hgood m (List.mem_cons_of_mem g hm)
    simp [connRead, hg, ih rest hgs]

/-- Claim C7: the read limit is 512 bytes; an oversized payload terminates
the read loop like any other terminal read error, after broadcasting exactly
the normalized payloads read before it, and triggers the deferred
unregister-and-close cleanup (the read-limit error is not a close error, so
nothing is logged). -/
theorem readLimit_C7 (now : Nat) (good : List Bytes) (big : Bytes)
    (rest : List Bytes) (fallback : ReadErr)
    (hgood : ∀ m ∈ good, m.length ≤ 512) (hbig : 512 < big.length) :
    maxMessageSize = 512 ∧
    readPumpOnConn now (good ++ big :: rest) fallback
      = [Effect.setReadLimit 512, Effect.setReadDeadline (now + pongWait),
          Effect.setPongHandler]
        ++ good.map (fun m => Effect.broadcast (normalizeMessage m))
        ++ [Effect.unregister, Effect.closeConn] := by
  refine ⟨rfl, ?_⟩
  have hsplit := connRead_oversize 512 fallback big hbig good rest hgood
  rw [readPumpOnConn]
  show readPump now (connRead maxMessageSize (good ++ big :: rest) fallback).1
      (connRead maxMessageSize (good ++ big :: rest) fallback).2 = _
  rw [show maxMessageSize = 512 from rfl, hsplit]
  rw [readPump, readPumpLoop, readPumpDefer]
  simp [isUnexpectedCloseError, maxMessageSize]

/-- Witness for claim C7: a stream of one small payload followed by a
513-byte payload broadcasts only the small payload and then cleans up. -/
theorem readLimit_C7_witness :
    (∀ m ∈ [([104, 105] : Bytes)], m.length ≤ 512) ∧
    512 < (List.replicate 513 97 : List Nat).length ∧
    readPumpOnConn 0 ([[104, 105]] ++ List.replicate 513 97 :: []) .otherErr
      = [Effect.setReadLimit 512, Effect.setReadDeadline (0 + pongWait),
          Effect.setPongHandler]
        ++ [([104, 105] : Bytes)].map
            (fun m => Effect.broadcast (normalizeMessage m))
        ++ [Effect.unregister, Effect.closeConn] :=
  ⟨by decide, by rw [List.length_replicate]; omega,
    (readLimit_C7 0 [[104, 105]] (List.replicate 513 97) [] .otherErr
      (by decide) (by rw [List.length_replicate]; omega)).2⟩

/-- Connection-side read state touched by the read pump's setup and pong
handler: the configured read limit, the read deadline, and whether a pong
handler is installed. -/
structure ConnState where
  readLimit : Option Nat
  readDeadline : Option Nat
  hasPongHandler : Bool
deriving DecidableEq

/-- The pong handler installed by the read pump (client.go lines 61–65):
`SetReadDeadline(time.Now().Add(pongWait))`, then `return nil`.  Returns the
updated connection state and the handler's returned error. -/
def pongHandler (now : Nat) (st : ConnState) : ConnState × Option ReadErr :=
  ({ st with readDeadline := some (now + pongWait) }, none)

/-- The read pump's setup sequence (client.go lines 59–65): set the read
limit, set the initial read deadline, install the pong handler. -/
def readPumpSetup (now : Nat) (st : ConnState) : ConnState :=
  { st with
    readLimit := some maxMessageSize
    readDeadline := some (now + pongWait)
    hasPongHandler := true }

/-- Claim C9: every pong reply extends the read deadline to the current time
plus the 60-second idle timeout and returns no error, and the read pump's
setup installs that same deadline before the first read. -/
theorem pongHandler_C9 (now : Nat) (st : ConnState) :
    (pongHandler now st).1.readDeadline = some (now + pongWait) ∧
    (pongHandler now st).2 = none ∧
    (readPumpSetup now st).readDeadline = some (now + pongWait) ∧
    pongWait = 60 * second :=
  ⟨rfl, rfl, rfl, rfl⟩

/-- One wake-up of the write pump's select loop (client.go lines 90–121):
either a receive from `c.send` yielding a message (`recv`, with the queue
contents `snapshot` drained in the same transaction and the outcomes of the
two checked write operations `NextWriter` and `w.Close`), or a receive from
`c.send` observing that the channel was closed and empty (`closedChan`,
i.e. `ok == false`), or a ping-ticker fire (`tick`, with the outcome of
`WriteMessage(PingMessage, nil)`). -/
inductive WInput where
  | recv (message : Bytes) (snapshot : List Bytes)
      (nextWriterErr closeWriterErr : Bool) (now : Nat)
  | closedChan (now : Nat)
  | tick (pingErr : Bool) (now : Nat)
deriving DecidableEq

/-- Observable actions of the write pump, in program order. -/
inductive WEffect where
  | setWriteDeadline (t : Nat)
  | writeCloseFrame
  | writeBytes (b : Bytes)
  | writePing
  | stopTicker
  | closeConn
deriving DecidableEq

/-- Effects of one iteration of the write pump's select, together with
whether the loop continues (`false` means the iteration executed `return`).
Mirrors client.go lines 91–121: every branch first sets the write deadline;
the closed-channel branch writes one close frame and returns; the message
branch returns on a `NextWriter` error, otherwise writes the message and
the newline-separated drained queue messages and returns on a `w.Close`
error; the ticker branch writes a ping and returns on its error. -/
def writeStep : WInput → List WEffect × Bool
  | .closedChan now =>
    ([.setWriteDeadline (now + writeWait), .writeCloseFrame], false)
  | .recv message snapshot nwErr cwErr now =>
    if nwErr then ([.setWriteDeadline (now + writeWait)], false)
    else
      ([.setWriteDeadline (now + writeWait), .writeBytes message]
        ++ (snapshot.map
            (fun m => [WEffect.writeBytes newline, WEffect.writeBytes m])).flatten,
        !cwErr)
  | .tick pingErr now =>
    ([.setWriteDeadline (now + writeWait), .writePing], !pingErr)

/-- The deferred cleanup of the write pump (client.go lines 86–89): stop the
ping ticker, then close the connection. -/
def writePumpDefer : List WEffect := [.stopTicker, .closeConn]

/-- Effect trace of `writePump` over a finite prefix of select wake-ups: an
empty input list means the pump is still blocked in its select (no effects
yet); when an iteration returns, the loop ends and the deferred cleanup
runs, and no further input is processed. -/
def writePumpRun : List WInput → List WEffect
  | [] => []
  | i :: rest =>
    if (writeStep i).2 then (writeStep i).1 ++ writePumpRun rest
    else (writeStep i).1 ++ writePumpDefer

/-- Whether the iteration's checked write operation fails: a `NextWriter` or
`w.Close` error in the message branch, or a ping-write error in the ticker
branch. -/
def failsWrite : WInput → Bool
  | .recv _ _ nwErr cwErr _ => nwErr || cwErr
  | .closedChan _ => false
  | .tick pingErr _ => pingErr

/-- An iteration whose checked write operation fails executes `return`. -/
theorem writeStep_stops_of_failsWrite (i : WInput)
    (h : failsWrite i = true) : (writeStep i).2 = false := by
  cases i with
  | recv message snapshot nwErr cwErr now =>
    rcases Bool.or_eq_true_iff.mp h with hnw | hcw
    · subst hnw
      simp [writeStep]
    · subst hcw
      cases nwErr <;> simp [writeStep]
  | closedChan now => cases h
  | tick pingErr now =>
    rw [failsWrite] at h
    subst h
    simp [writeStep]

/-- Claim C5: a write failure terminates the write pump immediately: the
failing iteration executes `return`, and the trace of any run containing it
is identical to the run truncated right after the failing iteration — no
later wake-up is processed, so no further queue receives or writes occur. -/
theorem writeFailure_stops_C5 (pre : List WInput) (i : WInput)
    (post : List WInput) (h : failsWrite i = true) :
    (writeStep i).2 = false ∧
    writePumpRun (pre ++ i :: post) = writePumpRun (pre ++ [i]) := by
  have hstop := writeStep_stops_of_failsWrite i h
  refine ⟨hstop, ?_⟩
  induction pre with
  | nil => simp [writePumpRun, hstop]
  | cons p ps ih =>
    simp only [List.cons_append, writePumpRun]
    cases hp : (writeStep p).2 <;> simp [ih]

/-- Witness for claim C5: a failing ping write at the head of the trace
stops the pump and the later wake-up is never processed. -/
theorem writeFailure_stops_C5_witness :
    failsWrite (WInput.tick true 0) = true ∧
    (writeStep (WInput.tick true 0)).2 = false ∧
    writePumpRun ([] ++ WInput.tick true 0 :: [WInput.tick false 5])
      = writePumpRun ([] ++ [WInput.tick true 0]) :=
  ⟨rfl, (writeFailure_stops_C5 [] (WInput.tick true 0) [WInput.tick false 5]
      rfl).1,
    (writeFailure_stops_C5 [] (WInput.tick true 0) [WInput.tick false 5]
      rfl).2⟩

/-- Claim C6: when the write pump observes that its queue was closed and is
empty, the remaining trace is exactly: set the write deadline, write one
close notification frame, then the deferred cleanup (stop the ticker, close
the connection) — one close frame, no further writes regardless of any
later wake-ups. -/
theorem closedQueue_C6 (now : Nat) (post : List WInput) :
    writePumpRun (WInput.closedChan now :: post)
      = [WEffect.setWriteDeadline (now + writeWait), WEffect.writeCloseFrame,
          WEffect.stopTicker, WEffect.closeConn] ∧
    (writePumpRun (WInput.closedChan now :: post)).count
        WEffect.writeCloseFrame = 1 := by
  have htrace : writePumpRun (WInput.closedChan now :: post)
      = [WEffect.setWriteDeadline (now + writeWait), WEffect.writeCloseFrame,
          WEffect.stopTicker, WEffect.closeConn] := by
    simp [writePumpRun, writeStep, writePumpDefer]
  refine ⟨htrace, ?_⟩
  rw [htrace]
  simp [List.count_cons]

end WsChat
